import Mathlib

/-!
Verification of the contract-version bookkeeping module (`migrate.rs`).

The module stores a single `ContractVersion` record (a pair of strings) in a
fixed storage slot and validates migrations with the semver library:
`ensure_from_older_version` parses the incoming and stored version strings,
checks the contract name, rejects downgrades, and advances the stored record
when the incoming version is strictly newer.

The development models, faithfully to the sources:
* the semver library (version 1) `Version` parser (`FromStr`), its error
  messages, and its total order on versions (major, minor, patch, pre-release
  precedence, and build metadata as the final tiebreaker), specialised to the
  character level — multi-byte characters can only occur at positions where
  the byte-level parser stops as well, so parsing by characters agrees with
  the byte-level original;
* the storage slot (`Item<ContractVersion>` under the key `contract_info`),
  modelled as the slot contents, an `Option ContractVersion`;
* the functions `get_contract_version`, `set_contract_version`,
  `ensure_from_older_version` and `from_semver` of `migrate.rs`.
-/

deriving instance DecidableEq for Except

namespace Semver

/-- Position markers of the semver parser, used in its error values. -/
inductive Position where
  | major
  | minor
  | patch
  | pre
  | build
deriving DecidableEq, Repr

/-- The display text of a `Position` (semver `Display for Position`). -/
def Position.describe : Position → String
  | .major => "major version number"
  | .minor => "minor version number"
  | .patch => "patch version number"
  | .pre => "pre-release identifier"
  | .build => "build metadata"

/-- The error variants the semver `Version` parser can produce
(semver `ErrorKind`, restricted to the variants reachable from
`Version::from_str`). -/
inductive Error where
  | empty
  | unexpectedEnd (pos : Position)
  | unexpectedChar (pos : Position) (c : Char)
  | unexpectedCharAfter (pos : Position) (c : Char)
  | leadingZero (pos : Position)
  | overflow (pos : Position)
  | emptySegment (pos : Position)
deriving DecidableEq, Repr

/-- The single-quote character, written by its code point. -/
def squote : Char := Char.ofNat 39

/-- Lowercase hexadecimal digits of a number (for the `\u` escape). -/
def hexStr (n : Nat) : String :=
  (Nat.toDigits 16 n).asString

/-- Rust `char` `Debug` escaping (`escape_debug`), on the ASCII range exactly
as in Rust; characters below space and the delete character use the `\u`
escape. -/
def escapeDebugChar (c : Char) : String :=
  if c = squote then "\\" ++ squote.toString
  else if c = '\\' then "\\\\"
  else if c = '\n' then "\\n"
  else if c = '\r' then "\\r"
  else if c = '\t' then "\\t"
  else if c = Char.ofNat 0 then "\\0"
  else if c.toNat < 32 ∨ c.toNat = 127 then "\\u\x7b" ++ hexStr c.toNat ++ "\x7d"
  else c.toString

/-- Rust `{:?}` rendering of a character: quoted and escaped. -/
def charDebug (c : Char) : String :=
  squote.toString ++ escapeDebugChar c ++ squote.toString

/-- The display text of a parse error (semver `Display for Error`). -/
def Error.message : Error → String
  | .empty => "empty string, expected a semver version"
  | .unexpectedEnd pos => "unexpected end of input while parsing " ++ pos.describe
  | .unexpectedChar pos c =>
      "unexpected character " ++ charDebug c ++ " while parsing " ++ pos.describe
  | .unexpectedCharAfter pos c =>
      "unexpected character " ++ charDebug c ++ " after " ++ pos.describe
  | .leadingZero pos => "invalid leading zero in " ++ pos.describe
  | .overflow pos => "value of " ++ pos.describe ++ " exceeds u64::MAX"
  | .emptySegment pos => "empty identifier segment in " ++ pos.describe

/-- A parsed semver version (semver `Version`): numeric components plus the
raw pre-release and build-metadata strings (empty list = absent), as in the
source, where `Prerelease` and `BuildMetadata` wrap the raw identifier text. -/
structure Version where
  major : Nat
  minor : Nat
  patch : Nat
  pre : List Char
  build : List Char
deriving DecidableEq, Repr

/-- `u64::MAX`. -/
def u64Max : Nat := 18446744073709551615

/-- Numeric value of a digit character. -/
def digitVal (c : Char) : Nat := c.toNat - 48

/-- The digit-consuming loop of semver `numeric_identifier`: `value` and
`len` accumulate the value and count of digits consumed so far; a second
digit after a leading zero and `u64` overflow are rejected as in the source
(`checked_mul`/`checked_add` against `u64::MAX`). -/
def numLoop (pos : Position) (value len : Nat) : List Char → Except Error (Nat × Nat × List Char)
  | c :: rest =>
    if c.isDigit then
      if value = 0 ∧ 0 < len then .error (.leadingZero pos)
      else if u64Max < value * 10 + digitVal c then .error (.overflow pos)
      else numLoop pos (value * 10 + digitVal c) (len + 1) rest
    else .ok (value, len, c :: rest)
  | [] => .ok (value, len, [])

/-- semver `numeric_identifier`: a nonempty maximal digit run, no leading
zero, bounded by `u64::MAX`. -/
def numeric_identifier (pos : Position) (input : List Char) : Except Error (Nat × List Char) :=
  match numLoop pos 0 0 input with
  | .error e => .error e
  | .ok (value, len, rest) =>
    if 0 < len then .ok (value, rest)
    else
      match rest with
      | c :: _ => .error (.unexpectedChar pos c)
      | [] => .error (.unexpectedEnd pos)

/-- semver `dot`: consume a literal dot. -/
def dot (pos : Position) : List Char → Except Error (List Char)
  | [] => .error (.unexpectedEnd pos)
  | c :: rest => if c = '.' then .ok rest else .error (.unexpectedCharAfter pos c)

/-- The characters admitted inside pre-release and build identifiers. -/
def isIdentChar (c : Char) : Bool := c.isAlpha || c.isDigit || c = '-'

/-- The loop of semver `identifier`: consumes dot-separated identifier
segments. `acc` is the already-consumed text (with its trailing dots),
`seg` the current segment, `hasND` whether the current segment has a
non-digit. An empty leading segment at a non-dot boundary returns the empty
identifier (the callers reject it); an empty later segment is an error; a
multi-digit all-numeric pre-release segment must not start with zero. -/
def identLoop (pos : Position) (acc seg : List Char) (hasND : Bool) :
    List Char → Except Error (List Char × List Char)
  | c :: rest =>
    if isIdentChar c then
      identLoop pos acc (seg ++ [c]) (hasND || !c.isDigit) rest
    else if seg = [] then
      if acc = [] ∧ c ≠ '.' then .ok ([], c :: rest)
      else .error (.emptySegment pos)
    else if pos = .pre ∧ 1 < seg.length ∧ hasND = false ∧ seg.head? = some '0' then
      .error (.leadingZero pos)
    else if c = '.' then
      identLoop pos (acc ++ seg ++ ['.']) [] false rest
    else .ok (acc ++ seg, c :: rest)
  | [] =>
    if seg = [] then
      if acc = [] then .ok ([], [])
      else .error (.emptySegment pos)
    else if pos = .pre ∧ 1 < seg.length ∧ hasND = false ∧ seg.head? = some '0' then
      .error (.leadingZero pos)
    else .ok (acc ++ seg, [])

/-- semver `identifier`: the entry point of the loop. -/
def identifier (pos : Position) (input : List Char) : Except Error (List Char × List Char) :=
  identLoop pos [] [] false input

/-- The optional build-metadata part and the end of the input
(the tail of semver `Version::from_str` after the pre-release part);
`pos` is the position of the last component parsed so far. -/
def finishParse (major minor patch : Nat) (pre : List Char) (pos : Position)
    (t : List Char) : Except Error Version :=
  match t with
  | [] => .ok ⟨major, minor, patch, pre, []⟩
  | c :: t8 =>
    if c = '+' then
      match identifier .build t8 with
      | .error e => .error e
      | .ok (build, t9) =>
        if build = [] then .error (.emptySegment .build)
        else
          match t9 with
          | c2 :: _ => .error (.unexpectedCharAfter .build c2)
          | [] => .ok ⟨major, minor, patch, pre, build⟩
    else .error (.unexpectedCharAfter pos c)

/-- The optional pre-release part (the tail of semver `Version::from_str`
after the patch number). -/
def parseAfterPatch (major minor patch : Nat) (t5 : List Char) : Except Error Version :=
  match t5 with
  | [] => .ok ⟨major, minor, patch, [], []⟩
  | c :: t6 =>
    if c = '-' then
      match identifier .pre t6 with
      | .error e => .error e
      | .ok (pre, t7) =>
        if pre = [] then .error (.emptySegment .pre)
        else finishParse major minor patch pre .pre t7
    else finishParse major minor patch [] .patch (c :: t6)

/-- semver `Version::from_str` on a character list: `major.minor.patch`
with optional `-pre` and `+build` parts and nothing after them. -/
def parseChars (text : List Char) : Except Error Version :=
  if text = [] then .error .empty
  else
    match numeric_identifier .major text with
    | .error e => .error e
    | .ok (major, t1) =>
      match dot .major t1 with
      | .error e => .error e
      | .ok t2 =>
        match numeric_identifier .minor t2 with
        | .error e => .error e
        | .ok (minor, t3) =>
          match dot .minor t3 with
          | .error e => .error e
          | .ok t4 =>
            match numeric_identifier .patch t4 with
            | .error e => .error e
            | .ok (patch, t5) => parseAfterPatch major minor patch t5

/-- semver `Version::from_str` (`new_version.parse::<Version>()`). -/
def parse (s : String) : Except Error Version := parseChars s.data

/-- Three-way comparison of natural numbers (Rust `Ord` on `u64`/`usize`). -/
def cmpN (a b : Nat) : Ordering :=
  if a < b then .lt else if a = b then .eq else .gt

/-- Lexicographic (code-point, hence for identifier characters byte-wise)
comparison of character lists, as Rust `Ord` on `str`. -/
def cmpChars : List Char → List Char → Ordering
  | [], [] => .eq
  | [], _ :: _ => .lt
  | _ :: _, [] => .gt
  | a :: as, b :: bs => (cmpN a.toNat b.toNat).then (cmpChars as bs)

/-- Split a character list at dots (Rust `str::split`, which yields one
empty piece on empty input). -/
def splitDots : List Char → List (List Char)
  | [] => [[]]
  | c :: rest =>
    if c = '.' then [] :: splitDots rest
    else
      match splitDots rest with
      | s :: ss => (c :: s) :: ss
      | [] => [[c]]

/-- Comparison of one pre-release identifier (semver `Ord for Prerelease`,
per-identifier step): all-numeric identifiers compare numerically (length,
then text), numeric sorts below alphanumeric, otherwise ASCII order. -/
def cmpPreIdent (l r : List Char) : Ordering :=
  match l.all Char.isDigit, r.all Char.isDigit with
  | true, true => (cmpN l.length r.length).then (cmpChars l r)
  | true, false => .lt
  | false, true => .gt
  | false, false => cmpChars l r

/-- Comparison of identifier sequences: pointwise, a longer sequence with a
matching prefix sorts higher (semver `Ord for Prerelease`, loop). -/
def cmpIdentList (f : List Char → List Char → Ordering) :
    List (List Char) → List (List Char) → Ordering
  | [], [] => .eq
  | [], _ :: _ => .lt
  | _ :: _, [] => .gt
  | x :: xs, y :: ys => (f x y).then (cmpIdentList f xs ys)

/-- semver `Ord for Prerelease`: the empty pre-release (a real release)
sorts above any pre-release; otherwise dot-separated identifiers compare
pointwise. -/
def cmpPre (l r : List Char) : Ordering :=
  if l = [] then (if r = [] then .eq else .gt)
  else if r = [] then .lt
  else cmpIdentList cmpPreIdent (splitDots l) (splitDots r)

/-- Leading zeros removed (Rust `trim_start_matches` with `0`). -/
def trimZeros (l : List Char) : List Char :=
  l.dropWhile (fun c => c == '0')

/-- Comparison of one build identifier (semver `Ord for BuildMetadata`,
per-identifier step): all-numeric identifiers compare by value (leading
zeros trimmed), ties broken by the untrimmed length; numeric below
alphanumeric; otherwise ASCII order. -/
def cmpBuildIdent (l r : List Char) : Ordering :=
  match l.all Char.isDigit, r.all Char.isDigit with
  | true, true =>
    ((cmpN (trimZeros l).length (trimZeros r).length).then
      (cmpChars (trimZeros l) (trimZeros r))).then
      (cmpN l.length r.length)
  | true, false => .lt
  | false, true => .gt
  | false, false => cmpChars l r

/-- semver `Ord for BuildMetadata`: dot-separated identifiers compare
pointwise (the empty string splits into one empty identifier, which sorts
below every other identifier). -/
def cmpBuild (l r : List Char) : Ordering :=
  cmpIdentList cmpBuildIdent (splitDots l) (splitDots r)

/-- semver `Ord for Version`: major, minor, patch, pre-release precedence,
then build metadata as the final tiebreaker. -/
def cmpVersion (a b : Version) : Ordering :=
  (cmpN a.major b.major).then
    ((cmpN a.minor b.minor).then
      ((cmpN a.patch b.patch).then
        ((cmpPre a.pre b.pre).then (cmpBuild a.build b.build))))

end Semver

/-- `migrate.rs ContractVersion`: the stored record. -/
structure ContractVersion where
  contract : String
  version : String
deriving DecidableEq, Repr

/-- The contents of the single `contract_info` storage slot the module uses
(`CONTRACT : Item<ContractVersion>`): absent before the first write. -/
abbrev Store := Option ContractVersion

/-- `cosmwasm_std::StdError`, restricted to the variants this module can
produce: `generic_err` (used for all semver, name and downgrade errors) and
`not_found` (raised by `Item::load` on an empty slot). -/
inductive StdError where
  | genericErr (msg : String)
  | notFound (kind : String)
deriving DecidableEq, Repr

/-- `migrate.rs get_contract_version`: load the record (`CONTRACT.load`),
`not_found` with the element type name when the slot is empty. -/
def get_contract_version (store : Store) : Except StdError ContractVersion :=
  match store with
  | some cv => .ok cv
  | none => .error (.notFound "cw_utils::migrate::ContractVersion")

/-- `migrate.rs set_contract_version`: unconditionally save the record
(`CONTRACT.save`, which cannot fail for this fixed record type). -/
def set_contract_version (_store : Store) (name version : String) :
    Except StdError Unit × Store :=
  (.ok (), some ⟨name, version⟩)

/-- `migrate.rs from_semver`: wrap a parse error as a generic error. -/
def from_semver (e : Semver.Error) : StdError :=
  .genericErr ("Semver: " ++ e.message)

/-- The name-mismatch message of `ensure_from_older_version`. -/
def nameMismatchMsg (storedContract name : String) : String :=
  "Cannot migrate from " ++ storedContract ++ " to " ++ name

/-- The downgrade message of `ensure_from_older_version`. -/
def downgradeMsg (storedVersion newVersion : String) : String :=
  "Cannot migrate from newer version (" ++ storedVersion ++ ") to older (" ++ newVersion ++ ")"

/-- `migrate.rs ensure_from_older_version`: parse the incoming version, load
and parse the stored record, check the name, reject downgrades, save the new
version when strictly newer, and return the stored (pre-migration) version.
The returned pair is (result, storage contents after the call). -/
def ensure_from_older_version (storage : Store) (name new_version : String) :
    Except StdError Semver.Version × Store :=
  match Semver.parse new_version with
  | .error e => (.error (from_semver e), storage)
  | .ok version =>
    match get_contract_version storage with
    | .error e => (.error e, storage)
    | .ok stored =>
      match Semver.parse stored.version with
      | .error e => (.error (from_semver e), storage)
      | .ok storage_version =>
        if name ≠ stored.contract then
          (.error (.genericErr (nameMismatchMsg stored.contract name)), storage)
        else if Semver.cmpVersion storage_version version = .gt then
          (.error (.genericErr (downgradeMsg stored.version new_version)), storage)
        else if Semver.cmpVersion storage_version version = .lt then
          match set_contract_version storage name new_version with
          | (.ok _, st2) => (.ok storage_version, st2)
          | (.error e, st2) => (.error e, st2)
        else
          (.ok storage_version, storage)

namespace Semver

/-- Modelled from the spec: the standard semantic-versioning precedence
relation the spec describes for step 5 of `checkAndAdvance` — major, then
minor, then patch, then pre-release precedence, build metadata ignored.
Used only to state claims about that described ordering; the code's actual
ordering is `cmpVersion`. -/
def cmpPrecedence (a b : Version) : Ordering :=
  (cmpN a.major b.major).then
    ((cmpN a.minor b.minor).then
      ((cmpN a.patch b.patch).then (cmpPre a.pre b.pre)))

/-- Decimal value of a digit string (most significant first). -/
def dsVal (ds : List Char) : Nat :=
  ds.foldl (fun a c => a * 10 + digitVal c) 0

/-- A digit string as the numeric parser consumes it: nonempty, all digits,
and no leading zero (a leading zero forces the one-digit string `0`). -/
def canonicalDigits (ds : List Char) : Prop :=
  ds ≠ [] ∧ ds.all Char.isDigit = true ∧ (ds.head? = some '0' → ds = ['0'])

/-- The pre-release part of a version string: nothing, or a dash and the
identifiers. -/
def preSuffix (pre : List Char) : List Char :=
  if pre = [] then [] else '-' :: pre

/-- The build-metadata part of a version string: nothing, or a plus and the
identifiers. -/
def buildSuffix (build : List Char) : List Char :=
  if build = [] then [] else '+' :: build

/-- Rejoin dot-separated identifiers (left inverse of `splitDots`). -/
def joinDots : List (List Char) → List Char
  | [] => []
  | [x] => x
  | x :: xs => x ++ '.' :: joinDots xs

end Semver

/-- `sub` occurs contiguously inside `hay`. -/
def ContainsSubstr (hay sub : String) : Prop :=
  ∃ p q : String, hay = p ++ sub ++ q

namespace Semver

theorem then_eq_eq {a b : Ordering} : a.then b = .eq ↔ a = .eq ∧ b = .eq := by
  cases a <;> simp [Ordering.then]

theorem cmpN_self (a : Nat) : cmpN a a = .eq := by
  simp [cmpN]

theorem cmpN_eq {a b : Nat} (h : cmpN a b = .eq) : a = b := by
  by_cases h1 : a < b
  · simp [cmpN, h1] at h
  · by_cases h2 : a = b
    · exact h2
    · simp [cmpN, h1, h2] at h

theorem charToNat_inj {c d : Char} (h : c.toNat = d.toNat) : c = d :=
  Char.eq_of_val_eq (UInt32.toNat.inj h)

theorem cmpChars_self : ∀ l, cmpChars l l = .eq
  | [] => rfl
  | a :: as => by
    rw [cmpChars, cmpN_self, cmpChars_self as]
    rfl

theorem cmpChars_eq : ∀ {l r}, cmpChars l r = .eq → l = r
  | [], [], _ => rfl
  | [], _ :: _, h => by simp [cmpChars] at h
  | _ :: _, [], h => by simp [cmpChars] at h
  | a :: as, b :: bs, h => by
    rw [cmpChars] at h
    rcases then_eq_eq.mp h with ⟨h1, h2⟩
    rw [charToNat_inj (cmpN_eq h1), cmpChars_eq h2]

theorem cmpIdentList_self (f : List Char → List Char → Ordering)
    (hf : ∀ x, f x x = .eq) : ∀ s, cmpIdentList f s s = .eq
  | [] => rfl
  | x :: xs => by
    rw [cmpIdentList, hf, cmpIdentList_self f hf xs]
    rfl

theorem cmpIdentList_eq (f : List Char → List Char → Ordering)
    (hf : ∀ {x y}, f x y = .eq → x = y) :
    ∀ {s t}, cmpIdentList f s t = .eq → s = t
  | [], [], _ => rfl
  | [], _ :: _, h => by simp [cmpIdentList] at h
  | _ :: _, [], h => by simp [cmpIdentList] at h
  | x :: xs, y :: ys, h => by
    rw [cmpIdentList] at h
    rcases then_eq_eq.mp h with ⟨h1, h2⟩
    rw [hf h1, cmpIdentList_eq f hf h2]

theorem cmpPreIdent_self (x : List Char) : cmpPreIdent x x = .eq := by
  unfold cmpPreIdent
  cases x.all Char.isDigit <;> simp [cmpN_self, cmpChars_self, Ordering.then]

theorem cmpPreIdent_eq {x y : List Char} (h : cmpPreIdent x y = .eq) : x = y := by
  unfold cmpPreIdent at h
  split at h
  · exact cmpChars_eq (then_eq_eq.mp h).2
  · simp at h
  · simp at h
  · exact cmpChars_eq h

theorem trimZeros_cons_zero (l : List Char) : trimZeros ('0' :: l) = trimZeros l := by
  simp [trimZeros, List.dropWhile_cons]

theorem trimZeros_cons_of_ne {c : Char} (hc : c ≠ '0') (l : List Char) :
    trimZeros (c :: l) = c :: l := by
  simp [trimZeros, List.dropWhile_cons, hc]

theorem trimZeros_length_le : ∀ l : List Char, (trimZeros l).length ≤ l.length
  | [] => Nat.le_refl 0
  | c :: l => by
    by_cases h : c = '0'
    · subst h
      rw [trimZeros_cons_zero]
      exact Nat.le_succ_of_le (trimZeros_length_le l)
    · rw [trimZeros_cons_of_ne h]

theorem trimZeros_inj : ∀ {l r : List Char},
    trimZeros l = trimZeros r → l.length = r.length → l = r
  | [], [], _, _ => rfl
  | [], _ :: _, _, hl => by simp at hl
  | _ :: _, [], _, hl => by simp at hl
  | a :: as, b :: bs, h, hl => by
    by_cases ha : a = '0' <;> by_cases hb : b = '0'
    · subst ha; subst hb
      rw [trimZeros_cons_zero, trimZeros_cons_zero] at h
      simp only [List.length_cons, Nat.add_right_cancel_iff] at hl
      rw [trimZeros_inj h hl]
    · subst ha
      rw [trimZeros_cons_zero, trimZeros_cons_of_ne hb] at h
      have hle := trimZeros_length_le as
      rw [h] at hle
      simp only [List.length_cons] at hl hle
      omega
    · subst hb
      rw [trimZeros_cons_zero, trimZeros_cons_of_ne ha] at h
      have hle := trimZeros_length_le bs
      rw [← h] at hle
      simp only [List.length_cons] at hl hle
      omega
    · rw [trimZeros_cons_of_ne ha, trimZeros_cons_of_ne hb] at h
      exact h

theorem cmpBuildIdent_self (x : List Char) : cmpBuildIdent x x = .eq := by
  unfold cmpBuildIdent
  cases x.all Char.isDigit <;> simp [cmpN_self, cmpChars_self, Ordering.then]

theorem cmpBuildIdent_eq {x y : List Char} (h : cmpBuildIdent x y = .eq) : x = y := by
  unfold cmpBuildIdent at h
  split at h
  · rcases then_eq_eq.mp h with ⟨h1, h3⟩
    rcases then_eq_eq.mp h1 with ⟨_, h2⟩
    exact trimZeros_inj (cmpChars_eq h2) (cmpN_eq h3)
  · simp at h
  · simp at h
  · exact cmpChars_eq h

theorem splitDots_ne_nil : ∀ cs : List Char, splitDots cs ≠ []
  | [] => by simp [splitDots]
  | c :: rest => by
    by_cases h : c = '.'
    · simp [splitDots, h]
    · simp only [splitDots, h, if_false]
      cases splitDots rest <;> simp

theorem joinDots_cons_cons (x : List Char) (s : List Char) (ss : List (List Char)) :
    joinDots (x :: s :: ss) = x ++ '.' :: joinDots (s :: ss) := by
  rfl

theorem joinDots_cons_head (c : Char) (s : List Char) : ∀ ss : List (List Char),
    joinDots ((c :: s) :: ss) = c :: joinDots (s :: ss)
  | [] => rfl
  | t :: ts => by
    rw [joinDots_cons_cons, joinDots_cons_cons]
    simp

theorem splitDots_dot (rest : List Char) : splitDots ('.' :: rest) = [] :: splitDots rest := by
  simp [splitDots]

theorem splitDots_cons_ne {c : Char} (h : c ≠ '.') (rest s : List Char)
    (ss : List (List Char)) (hs : splitDots rest = s :: ss) :
    splitDots (c :: rest) = (c :: s) :: ss := by
  simp [splitDots, h, hs]

theorem joinDots_splitDots : ∀ cs : List Char, joinDots (splitDots cs) = cs
  | [] => rfl
  | c :: rest => by
    by_cases h : c = '.'
    · subst h
      rw [splitDots_dot]
      cases hs : splitDots rest with
      | nil => exact absurd hs (splitDots_ne_nil rest)
      | cons s ss =>
        have ih := joinDots_splitDots rest
        rw [hs] at ih
        rw [joinDots_cons_cons, ih]
        simp
    · cases hs : splitDots rest with
      | nil => exact absurd hs (splitDots_ne_nil rest)
      | cons s ss =>
        have ih := joinDots_splitDots rest
        rw [hs] at ih
        rw [splitDots_cons_ne h rest s ss hs, joinDots_cons_head, ih]

theorem cmpPre_self (l : List Char) : cmpPre l l = .eq := by
  unfold cmpPre
  by_cases h : l = []
  · simp [h]
  · simp [h, cmpIdentList_self cmpPreIdent cmpPreIdent_self]

theorem cmpPre_eq {l r : List Char} (h : cmpPre l r = .eq) : l = r := by
  unfold cmpPre at h
  by_cases hl : l = []
  · by_cases hr : r = []
    · rw [hl, hr]
    · simp [hl, hr] at h
  · by_cases hr : r = []
    · simp [hl, hr] at h
    · simp only [hl, hr, if_false] at h
      have := cmpIdentList_eq cmpPreIdent (fun {_ _} => cmpPreIdent_eq) h
      rw [← joinDots_splitDots l, ← joinDots_splitDots r, this]

theorem cmpBuild_self (l : List Char) : cmpBuild l l = .eq :=
  cmpIdentList_self cmpBuildIdent cmpBuildIdent_self _

theorem cmpBuild_eq {l r : List Char} (h : cmpBuild l r = .eq) : l = r := by
  have := cmpIdentList_eq cmpBuildIdent (fun {_ _} => cmpBuildIdent_eq) h
  rw [← joinDots_splitDots l, ← joinDots_splitDots r, this]

theorem cmpVersion_self (a : Version) : cmpVersion a a = .eq := by
  unfold cmpVersion
  simp [cmpN_self, cmpPre_self, cmpBuild_self, Ordering.then]

theorem cmpVersion_eq {a b : Version} (h : cmpVersion a b = .eq) : a = b := by
  unfold cmpVersion at h
  rcases then_eq_eq.mp h with ⟨h1, h⟩
  rcases then_eq_eq.mp h with ⟨h2, h⟩
  rcases then_eq_eq.mp h with ⟨h3, h⟩
  rcases then_eq_eq.mp h with ⟨h4, h5⟩
  rcases a with ⟨ma, mia, pa, pra, ba⟩
  rcases b with ⟨mb, mib, pb, prb, bb⟩
  simp only [Version.mk.injEq]
  exact ⟨cmpN_eq h1, cmpN_eq h2, cmpN_eq h3, cmpPre_eq h4, cmpBuild_eq h5⟩

end Semver

namespace Semver

theorem isDigit_toNat {c : Char} (h : c.isDigit = true) : 48 ≤ c.toNat ∧ c.toNat ≤ 57 := by
  simp only [Char.isDigit, ge_iff_le, Bool.and_eq_true, decide_eq_true_eq] at h
  obtain ⟨h1, h2⟩ := h
  exact ⟨BitVec.le_def.mp (UInt32.le_def.mp h1), BitVec.le_def.mp (UInt32.le_def.mp h2)⟩

theorem digitVal_lt {c : Char} (h : c.isDigit = true) : digitVal c < 10 := by
  have := isDigit_toNat h
  unfold digitVal
  omega

theorem digitVal_inj {c d : Char} (hc : c.isDigit = true) (hd : d.isDigit = true)
    (h : digitVal c = digitVal d) : c = d := by
  have h1 := isDigit_toNat hc
  have h2 := isDigit_toNat hd
  unfold digitVal at h
  apply charToNat_inj
  omega

theorem digitVal_eq_zero {c : Char} (hc : c.isDigit = true) : digitVal c = 0 ↔ c = '0' := by
  constructor
  · intro h
    have h1 := isDigit_toNat hc
    unfold digitVal at h
    apply charToNat_inj
    have h0 : ('0' : Char).toNat = 48 := rfl
    omega
  · rintro rfl
    rfl

theorem dsVal_cons (c : Char) (ds : List Char) :
    dsVal (c :: ds) = digitVal c * 10 ^ ds.length + dsVal ds := by
  have acc : ∀ (l : List Char) (a : Nat),
      l.foldl (fun x d => x * 10 + digitVal d) a = a * 10 ^ l.length + dsVal l := by
    intro l
    induction l with
    | nil => intro a; simp [dsVal]
    | cons x xs ih =>
      intro a
      rw [List.foldl_cons, ih]
      have hx : dsVal (x :: xs) = digitVal x * 10 ^ xs.length + dsVal xs := by
        show List.foldl _ 0 (x :: xs) = _
        rw [List.foldl_cons, ih]
        ring_nf
      rw [hx, List.length_cons]
      ring
  show List.foldl _ 0 (c :: ds) = _
  rw [List.foldl_cons, acc]
  ring_nf

theorem foldl_digit_acc (ds : List Char) (a : Nat) :
    ds.foldl (fun x c => x * 10 + digitVal c) a = a * 10 ^ ds.length + dsVal ds := by
  induction ds generalizing a with
  | nil => simp [dsVal]
  | cons c cs ih =>
    rw [List.foldl_cons, ih, dsVal_cons, List.length_cons]
    ring

theorem dsVal_lt : ∀ {ds : List Char}, ds.all Char.isDigit = true → dsVal ds < 10 ^ ds.length
  | [], _ => by simp [dsVal]
  | c :: ds, h => by
    simp only [List.all_cons, Bool.and_eq_true] at h
    rw [dsVal_cons, List.length_cons]
    have h1 := digitVal_lt h.1
    have h2 := dsVal_lt h.2
    calc digitVal c * 10 ^ ds.length + dsVal ds
        < digitVal c * 10 ^ ds.length + 10 ^ ds.length := by omega
      _ = (digitVal c + 1) * 10 ^ ds.length := by ring
      _ ≤ 10 * 10 ^ ds.length := Nat.mul_le_mul_right _ (by omega)
      _ = 10 ^ (ds.length + 1) := by ring

theorem dsVal_ge {c : Char} {ds : List Char} (hcd : c.isDigit = true) (hc : c ≠ '0') :
    10 ^ ds.length ≤ dsVal (c :: ds) := by
  rw [dsVal_cons]
  have h1 : 1 ≤ digitVal c := by
    rcases Nat.eq_zero_or_pos (digitVal c) with h | h
    · exact absurd ((digitVal_eq_zero hcd).mp h) hc
    · exact h
  calc 10 ^ ds.length = 1 * 10 ^ ds.length := by ring
    _ ≤ digitVal c * 10 ^ ds.length := Nat.mul_le_mul_right _ h1
    _ ≤ _ := Nat.le_add_right _ _

theorem mul_add_inj {a b r s B : Nat} (hr : r < B) (hs : s < B)
    (h : a * B + r = b * B + s) : a = b ∧ r = s := by
  have hB : 0 < B := Nat.lt_of_le_of_lt (Nat.zero_le r) hr
  have ha : (a * B + r) % B = r := by
    rw [Nat.mul_comm, Nat.mul_add_mod]
    exact Nat.mod_eq_of_lt hr
  have hb : (b * B + s) % B = s := by
    rw [Nat.mul_comm, Nat.mul_add_mod]
    exact Nat.mod_eq_of_lt hs
  have hrs : r = s := by rw [← ha, ← hb, h]
  subst hrs
  refine ⟨Nat.eq_of_mul_eq_mul_right hB (by omega), rfl⟩

theorem digits_inj_of_length : ∀ {ds es : List Char}, ds.all Char.isDigit = true →
    es.all Char.isDigit = true → ds.length = es.length → dsVal ds = dsVal es → ds = es
  | [], [], _, _, _, _ => rfl
  | [], _ :: _, _, _, hl, _ => by simp at hl
  | _ :: _, [], _, _, hl, _ => by simp at hl
  | c :: ds, d :: es, hd, he, hl, hv => by
    simp only [List.all_cons, Bool.and_eq_true] at hd he
    simp only [List.length_cons, Nat.add_right_cancel_iff] at hl
    rw [dsVal_cons, dsVal_cons, hl] at hv
    have h1 := dsVal_lt hd.2
    have h2 := dsVal_lt he.2
    rw [hl] at h1
    have hmm := mul_add_inj h1 h2 hv
    rw [digitVal_inj hd.1 he.1 hmm.1, digits_inj_of_length hd.2 he.2 hl hmm.2]

theorem canonical_dsVal_inj : ∀ {ds es : List Char}, canonicalDigits ds →
    canonicalDigits es → dsVal ds = dsVal es → ds = es := by
  have main : ∀ {c : Char} {ds : List Char} {d : Char} {es : List Char},
      canonicalDigits (c :: ds) → canonicalDigits (d :: es) →
      dsVal (c :: ds) = dsVal (d :: es) → c ≠ '0' → d ≠ '0' → c :: ds = d :: es := by
    intro c ds d es hc hd hv hc0 hd0
    obtain ⟨-, hcall, -⟩ := hc
    obtain ⟨-, hdall, -⟩ := hd
    simp only [List.all_cons, Bool.and_eq_true] at hcall hdall
    have hlen : ds.length = es.length := by
      rcases Nat.lt_trichotomy ds.length es.length with hl | hl | hl
      · exfalso
        have u1 : dsVal (c :: ds) < 10 ^ (ds.length + 1) := by
          have := @dsVal_lt (c :: ds) (by simp [hcall.1, hcall.2])
          simpa using this
        have u2 : 10 ^ es.length ≤ dsVal (d :: es) := dsVal_ge hdall.1 hd0
        have u3 : (10 : Nat) ^ (ds.length + 1) ≤ 10 ^ es.length :=
          Nat.pow_le_pow_right (by omega) (by omega)
        omega
      · exact hl
      · exfalso
        have u1 : dsVal (d :: es) < 10 ^ (es.length + 1) := by
          have := @dsVal_lt (d :: es) (by simp [hdall.1, hdall.2])
          simpa using this
        have u2 : 10 ^ ds.length ≤ dsVal (c :: ds) := dsVal_ge hcall.1 hc0
        have u3 : (10 : Nat) ^ (es.length + 1) ≤ 10 ^ ds.length :=
          Nat.pow_le_pow_right (by omega) (by omega)
        omega
    exact digits_inj_of_length (by simp [hcall.1, hcall.2]) (by simp [hdall.1, hdall.2])
      (by simp [hlen]) hv
  intro ds es hd he hv
  obtain ⟨hdne, hdall, hdz⟩ := hd
  obtain ⟨hene, heall, hez⟩ := he
  rcases ds with _ | ⟨c, ds'⟩
  · exact absurd rfl hdne
  rcases es with _ | ⟨d, es'⟩
  · exact absurd rfl hene
  by_cases hc0 : c = '0'
  · have h1 : c :: ds' = ['0'] := hdz (by rw [hc0]; rfl)
    by_cases hd0 : d = '0'
    · have h2 : d :: es' = ['0'] := hez (by rw [hd0]; rfl)
      rw [h1, h2]
    · exfalso
      simp only [List.all_cons, Bool.and_eq_true] at heall
      have u2 : 10 ^ es'.length ≤ dsVal (d :: es') := dsVal_ge heall.1 hd0
      rw [← hv, h1] at u2
      have : dsVal ['0'] = 0 := rfl
      rw [this] at u2
      have : 0 < 10 ^ es'.length := Nat.pos_pow_of_pos _ (by omega)
      omega
  · by_cases hd0 : d = '0'
    · exfalso
      simp only [List.all_cons, Bool.and_eq_true] at hdall
      have u2 : 10 ^ ds'.length ≤ dsVal (c :: ds') := dsVal_ge hdall.1 hc0
      rw [hv] at u2
      have h2 : d :: es' = ['0'] := hez (by rw [hd0]; rfl)
      rw [h2] at u2
      have : dsVal ['0'] = 0 := rfl
      rw [this] at u2
      have : 0 < 10 ^ ds'.length := Nat.pos_pow_of_pos _ (by omega)
      omega
    · exact main ⟨hdne, hdall, hdz⟩ ⟨hene, heall, hez⟩ hv hc0 hd0

theorem numLoop_spec (pos : Position) (input : List Char) :
    ∀ {value len v l : Nat} {rest : List Char},
    numLoop pos value len input = .ok (v, l, rest) →
    ∃ ds : List Char, input = ds ++ rest ∧ ds.all Char.isDigit = true ∧
      v = ds.foldl (fun a c => a * 10 + digitVal c) value ∧
      l = len + ds.length ∧ (value = 0 → 0 < len → ds = []) := by
  induction input with
  | nil =>
    intro value len v l rest h
    simp only [numLoop, Except.ok.injEq, Prod.mk.injEq] at h
    obtain ⟨rfl, rfl, rfl⟩ := h
    exact ⟨[], by simp, rfl, rfl, by simp, fun _ _ => rfl⟩
  | cons c cs ih =>
    intro value len v l rest h
    simp only [numLoop] at h
    by_cases hdig : c.isDigit = true
    · rw [if_pos hdig] at h
      by_cases hlz : value = 0 ∧ 0 < len
      · rw [if_pos hlz] at h
        simp at h
      · rw [if_neg hlz] at h
        by_cases hov : u64Max < value * 10 + digitVal c
        · rw [if_pos hov] at h
          simp at h
        · rw [if_neg hov] at h
          obtain ⟨ds, hds, hall, hv, hl, -⟩ := ih h
          refine ⟨c :: ds, by rw [List.cons_append, ← hds], ?_, ?_, ?_, ?_⟩
          · simp [List.all_cons, hdig, hall]
          · rw [List.foldl_cons]
            exact hv
          · rw [hl, List.length_cons]
            omega
          · intro h0 hlen
            exact absurd ⟨h0, hlen⟩ hlz
    · rw [if_neg hdig] at h
      simp only [Except.ok.injEq, Prod.mk.injEq] at h
      obtain ⟨rfl, rfl, rfl⟩ := h
      exact ⟨[], rfl, rfl, rfl, by simp, fun _ _ => rfl⟩

theorem numeric_identifier_spec {pos : Position} {input : List Char} {val : Nat}
    {rest : List Char} (h : numeric_identifier pos input = .ok (val, rest)) :
    ∃ ds, input = ds ++ rest ∧ canonicalDigits ds ∧ dsVal ds = val := by
  unfold numeric_identifier at h
  cases hnl : numLoop pos 0 0 input with
  | error e =>
    rw [hnl] at h
    simp at h
  | ok t =>
    obtain ⟨value, len, rest'⟩ := t
    rw [hnl] at h
    simp only [] at h
    by_cases hlen : 0 < len
    · rw [if_pos hlen] at h
      simp only [Except.ok.injEq, Prod.mk.injEq] at h
      obtain ⟨rfl, rfl⟩ := h
      obtain ⟨ds, hds, hall, hv, hl, -⟩ := numLoop_spec pos input hnl
      have hdne : ds ≠ [] := by
        intro hnil
        rw [hnil] at hl
        simp at hl
        omega
      refine ⟨ds, hds, ⟨hdne, hall, ?_⟩, hv.symm⟩
      intro hhead
      rcases ds with _ | ⟨c, ds₂⟩
      · exact absurd rfl hdne
      · simp only [List.head?_cons, Option.some.injEq] at hhead
        subst hhead
        rcases ds₂ with _ | ⟨c2, ds₃⟩
        · rfl
        · exfalso
          rw [hds, List.cons_append] at hnl
          simp only [numLoop] at hnl
          rw [if_pos (by decide)] at hnl
          rw [if_neg (by simp)] at hnl
          rw [if_neg (by decide)] at hnl
          have hc2 : c2.isDigit = true := by
            simp only [List.all_cons, Bool.and_eq_true] at hall
            exact hall.2.1
          rw [if_pos hc2] at hnl
          rw [if_pos (show 0 * 10 + digitVal '0' = 0 ∧ 0 < 0 + 1 by decide)] at hnl
          simp at hnl
    · rw [if_neg hlen] at h
      cases rest' with
      | cons c r => simp at h
      | nil => simp at h

theorem dot_spec {pos : Position} {t t2 : List Char} (h : dot pos t = .ok t2) :
    t = '.' :: t2 := by
  cases t with
  | nil => simp [dot] at h
  | cons c r =>
    simp only [dot] at h
    by_cases hc : c = '.'
    · rw [if_pos hc] at h
      simp only [Except.ok.injEq] at h
      rw [hc, h]
    · rw [if_neg hc] at h
      simp at h

theorem identLoop_spec (pos : Position) (input : List Char) :
    ∀ {acc seg : List Char} {hnd : Bool} {out rest : List Char},
    identLoop pos acc seg hnd input = .ok (out, rest) →
    ∃ mid, input = mid ++ rest ∧ out = acc ++ (seg ++ mid) := by
  induction input with
  | nil =>
    intro acc seg hnd out rest h
    simp only [identLoop] at h
    by_cases hseg : seg = []
    · rw [if_pos hseg] at h
      by_cases hacc : acc = []
      · rw [if_pos hacc] at h
        simp only [Except.ok.injEq, Prod.mk.injEq] at h
        obtain ⟨rfl, rfl⟩ := h
        exact ⟨[], rfl, by simp [hseg, hacc]⟩
      · rw [if_neg hacc] at h
        simp at h
    · rw [if_neg hseg] at h
      split at h
      · simp at h
      · simp only [Except.ok.injEq, Prod.mk.injEq] at h
        obtain ⟨rfl, rfl⟩ := h
        exact ⟨[], by simp, by simp⟩
  | cons c cs ih =>
    intro acc seg hnd out rest h
    simp only [identLoop] at h
    by_cases hic : isIdentChar c = true
    · rw [if_pos hic] at h
      obtain ⟨mid, hmid, hout⟩ := ih h
      refine ⟨c :: mid, by rw [List.cons_append, ← hmid], ?_⟩
      rw [hout]
      simp
    · rw [if_neg hic] at h
      by_cases hseg : seg = []
      · rw [if_pos hseg] at h
        by_cases hfir : acc = [] ∧ c ≠ '.'
        · rw [if_pos hfir] at h
          simp only [Except.ok.injEq, Prod.mk.injEq] at h
          obtain ⟨rfl, rfl⟩ := h
          exact ⟨[], by simp, by simp [hseg, hfir.1]⟩
        · rw [if_neg hfir] at h
          simp at h
      · rw [if_neg hseg] at h
        split at h
        · simp at h
        · by_cases hdot : c = '.'
          · rw [if_pos hdot] at h
            obtain ⟨mid, hmid, hout⟩ := ih h
            refine ⟨c :: mid, by rw [List.cons_append, ← hmid], ?_⟩
            rw [hout, hdot]
            simp
          · rw [if_neg hdot] at h
            simp only [Except.ok.injEq, Prod.mk.injEq] at h
            obtain ⟨rfl, rfl⟩ := h
            exact ⟨[], by simp, by simp⟩

theorem identifier_spec {pos : Position} {input out rest : List Char}
    (h : identifier pos input = .ok (out, rest)) : input = out ++ rest := by
  obtain ⟨mid, hmid, hout⟩ := identLoop_spec pos input h
  rw [hmid, hout]
  simp

theorem finishParse_spec {M m p : Nat} {pre : List Char} {pos : Position}
    {t : List Char} {v : Version} (h : finishParse M m p pre pos t = .ok v) :
    v.major = M ∧ v.minor = m ∧ v.patch = p ∧ v.pre = pre ∧
    t = buildSuffix v.build := by
  cases t with
  | nil =>
    simp only [finishParse, Except.ok.injEq] at h
    subst h
    exact ⟨rfl, rfl, rfl, rfl, by simp [buildSuffix]⟩
  | cons c t8 =>
    simp only [finishParse] at h
    by_cases hc : c = '+'
    · rw [if_pos hc] at h
      cases hi : identifier .build t8 with
      | error e =>
        rw [hi] at h
        simp at h
      | ok pr =>
        obtain ⟨build, t9⟩ := pr
        rw [hi] at h
        simp only [] at h
        by_cases hb : build = []
        · rw [if_pos hb] at h
          simp at h
        · rw [if_neg hb] at h
          cases t9 with
          | cons c2 t10 => simp at h
          | nil =>
            simp only [Except.ok.injEq] at h
            subst h
            have hid := identifier_spec hi
            rw [List.append_nil] at hid
            exact ⟨rfl, rfl, rfl, rfl, by simp [buildSuffix, hb, hc, hid]⟩
    · rw [if_neg hc] at h
      simp at h

theorem parseAfterPatch_spec {M m p : Nat} {t5 : List Char} {v : Version}
    (h : parseAfterPatch M m p t5 = .ok v) :
    v.major = M ∧ v.minor = m ∧ v.patch = p ∧
    t5 = preSuffix v.pre ++ buildSuffix v.build := by
  cases t5 with
  | nil =>
    simp only [parseAfterPatch, Except.ok.injEq] at h
    subst h
    exact ⟨rfl, rfl, rfl, by simp [preSuffix, buildSuffix]⟩
  | cons c t6 =>
    simp only [parseAfterPatch] at h
    by_cases hc : c = '-'
    · rw [if_pos hc] at h
      cases hi : identifier .pre t6 with
      | error e =>
        rw [hi] at h
        simp at h
      | ok pr =>
        obtain ⟨pre, t7⟩ := pr
        rw [hi] at h
        simp only [] at h
        by_cases hp : pre = []
        · rw [if_pos hp] at h
          simp at h
        · rw [if_neg hp] at h
          obtain ⟨h1, h2, h3, h4, h7⟩ := finishParse_spec h
          have hid := identifier_spec hi
          refine ⟨h1, h2, h3, ?_⟩
          simp [hc, hid, h7, h4, preSuffix, hp]
    · rw [if_neg hc] at h
      obtain ⟨h1, h2, h3, h4, h7⟩ := finishParse_spec h
      refine ⟨h1, h2, h3, ?_⟩
      simp only [preSuffix, h4, if_pos rfl, List.nil_append]
      exact h7

theorem parseChars_spec {text : List Char} {v : Version} (h : parseChars text = .ok v) :
    ∃ d1 d2 d3, canonicalDigits d1 ∧ canonicalDigits d2 ∧ canonicalDigits d3 ∧
      dsVal d1 = v.major ∧ dsVal d2 = v.minor ∧ dsVal d3 = v.patch ∧
      text = d1 ++ '.' :: (d2 ++ '.' :: (d3 ++ (preSuffix v.pre ++ buildSuffix v.build))) := by
  unfold parseChars at h
  by_cases ht : text = []
  · rw [if_pos ht] at h
    simp at h
  · rw [if_neg ht] at h
    cases h1 : numeric_identifier .major text with
    | error e => rw [h1] at h; simp at h
    | ok r1 =>
      obtain ⟨M, t1⟩ := r1
      rw [h1] at h
      simp only [] at h
      cases h2 : dot .major t1 with
      | error e => rw [h2] at h; simp at h
      | ok t2 =>
        rw [h2] at h
        simp only [] at h
        cases h3 : numeric_identifier .minor t2 with
        | error e => rw [h3] at h; simp at h
        | ok r2 =>
          obtain ⟨mi, t3⟩ := r2
          rw [h3] at h
          simp only [] at h
          cases h4 : dot .minor t3 with
          | error e => rw [h4] at h; simp at h
          | ok t4 =>
            rw [h4] at h
            simp only [] at h
            cases h5 : numeric_identifier .patch t4 with
            | error e => rw [h5] at h; simp at h
            | ok r3 =>
              obtain ⟨pa, t5⟩ := r3
              rw [h5] at h
              simp only [] at h
              obtain ⟨hM, hmi, hpa, ht5⟩ := parseAfterPatch_spec h
              obtain ⟨d1, hd1, hcd1, hv1⟩ := numeric_identifier_spec h1
              obtain ⟨d2, hd2, hcd2, hv2⟩ := numeric_identifier_spec h3
              obtain ⟨d3, hd3, hcd3, hv3⟩ := numeric_identifier_spec h5
              have hdot1 := dot_spec h2
              have hdot2 := dot_spec h4
              refine ⟨d1, d2, d3, hcd1, hcd2, hcd3, ?_, ?_, ?_, ?_⟩
              · rw [hv1, hM]
              · rw [hv2, hmi]
              · rw [hv3, hpa]
              · rw [hd1, hdot1, hd2, hdot2, hd3, ht5]

theorem parse_inj {s1 s2 : String} {v : Version}
    (h1 : parse s1 = .ok v) (h2 : parse s2 = .ok v) : s1 = s2 := by
  apply String.ext
  obtain ⟨a1, b1, e1, hca1, hcb1, hce1, hva1, hvb1, hve1, ht1⟩ := parseChars_spec h1
  obtain ⟨a2, b2, e2, hca2, hcb2, hce2, hva2, hvb2, hve2, ht2⟩ := parseChars_spec h2
  have q1 : a1 = a2 := canonical_dsVal_inj hca1 hca2 (by rw [hva1, hva2])
  have q2 : b1 = b2 := canonical_dsVal_inj hcb1 hcb2 (by rw [hvb1, hvb2])
  have q3 : e1 = e2 := canonical_dsVal_inj hce1 hce2 (by rw [hve1, hve2])
  rw [ht1, ht2, q1, q2, q3]

end Semver

theorem containsSubstr_mem {hay sub : String} (h : ContainsSubstr hay sub)
    {c : Char} (hc : c ∈ sub.data) : c ∈ hay.data := by
  rcases h with ⟨p, q, rfl⟩
  simp only [String.data_append, List.mem_append]
  tauto

theorem ensure_error_state {st : Store} {n nv : String} {e : StdError} {st2 : Store}
    (h : ensure_from_older_version st n nv = (.error e, st2)) : st2 = st := by
  unfold ensure_from_older_version at h
  repeat' split at h
  all_goals simp only [Prod.mk.injEq] at h
  all_goals first
    | exact h.2.symm
    | simp_all [set_contract_version]

/-- Claim C2: `ensure_from_older_version` is atomic — whenever it returns an
error (malformed new version, missing record, malformed stored version, name
mismatch, or downgrade), the stored record is exactly what it was before the
call; nothing is persisted on any error path. -/
theorem c2_error_leaves_storage_unchanged (st : Store) (n nv : String)
    (h : ∃ e, (ensure_from_older_version st n nv).1 = .error e) :
    (ensure_from_older_version st n nv).2 = st := by
  rcases h with ⟨e, h1⟩
  have h2 : ensure_from_older_version st n nv =
      (.error e, (ensure_from_older_version st n nv).2) := by
    rw [← h1]
  exact ensure_error_state h2

theorem c2_witness : (ensure_from_older_version none "demo" "x.y.z").2 = none :=
  c2_error_leaves_storage_unchanged none "demo" "x.y.z"
    ⟨from_semver (.unexpectedChar .major 'x'), by decide⟩

/-- Claim C3: for a stored record `(n, sv)` with `sv` a valid semantic
version, calling `ensure_from_older_version` with a new-version string that
parses to a version equal to the stored one succeeds, returns the parsed
stored version, and performs no write: the stored record (both fields) is
unchanged. -/
theorem c3_equal_version_noop (n sv nv : String) (p : Semver.Version)
    (hs : Semver.parse sv = .ok p) (hn : Semver.parse nv = .ok p) :
    ensure_from_older_version (some ⟨n, sv⟩) n nv = (.ok p, some ⟨n, sv⟩) := by
  simp [ensure_from_older_version, hn, get_contract_version, hs, Semver.cmpVersion_self]

theorem c3_witness :
    ensure_from_older_version (some ⟨"demo", "0.1.2"⟩) "demo" "0.1.2" =
      (.ok ⟨0, 1, 2, [], []⟩, some ⟨"demo", "0.1.2"⟩) :=
  c3_equal_version_noop "demo" "0.1.2" "0.1.2" ⟨0, 1, 2, [], []⟩ (by decide) (by decide)

/-- Claim C4: when the parsed stored version is strictly greater than the
parsed new version (names equal, both versions valid),
`ensure_from_older_version` fails with the downgrade error, whose message
contains both the stored version string and the incoming version string, and
the stored record is unchanged. -/
theorem c4_downgrade_rejected (n sv nv : String) (p q : Semver.Version)
    (hs : Semver.parse sv = .ok p) (hn : Semver.parse nv = .ok q)
    (hgt : Semver.cmpVersion p q = .gt) :
    ensure_from_older_version (some ⟨n, sv⟩) n nv =
      (.error (.genericErr (downgradeMsg sv nv)), some ⟨n, sv⟩) ∧
    ContainsSubstr (downgradeMsg sv nv) sv ∧ ContainsSubstr (downgradeMsg sv nv) nv := by
  refine ⟨?_, ?_, ?_⟩
  · simp [ensure_from_older_version, hn, get_contract_version, hs, hgt]
  · exact ⟨"Cannot migrate from newer version (", ") to older (" ++ nv ++ ")",
      by simp [downgradeMsg, String.append_assoc]⟩
  · exact ⟨"Cannot migrate from newer version (" ++ sv ++ ") to older (", ")",
      by simp [downgradeMsg, String.append_assoc]⟩

theorem c4_witness :
    (ensure_from_older_version (some ⟨"demo", "0.10.2"⟩) "demo" "0.9.7" =
      (.error (.genericErr (downgradeMsg "0.10.2" "0.9.7")), some ⟨"demo", "0.10.2"⟩) ∧
    ContainsSubstr (downgradeMsg "0.10.2" "0.9.7") "0.10.2" ∧
    ContainsSubstr (downgradeMsg "0.10.2" "0.9.7") "0.9.7") :=
  c4_downgrade_rejected "demo" "0.10.2" "0.9.7" ⟨0, 10, 2, [], []⟩ ⟨0, 9, 7, [], []⟩
    (by decide) (by decide) (by decide)

/-- Claim C5: when the stored contract name differs from the expected name
(exact string inequality) and both version strings parse,
`ensure_from_older_version` fails with the name-mismatch error, whose
message contains both the stored name and the expected name. -/
theorem c5_name_mismatch (m n sv nv : String) (p q : Semver.Version)
    (hne : n ≠ m) (hs : Semver.parse sv = .ok p) (hn : Semver.parse nv = .ok q) :
    ensure_from_older_version (some ⟨m, sv⟩) n nv =
      (.error (.genericErr (nameMismatchMsg m n)), some ⟨m, sv⟩) ∧
    ContainsSubstr (nameMismatchMsg m n) m ∧ ContainsSubstr (nameMismatchMsg m n) n := by
  refine ⟨?_, ?_, ?_⟩
  · simp [ensure_from_older_version, hn, get_contract_version, hs, hne]
  · exact ⟨"Cannot migrate from ", " to " ++ n,
      by simp [nameMismatchMsg, String.append_assoc]⟩
  · exact ⟨"Cannot migrate from " ++ m ++ " to ", "",
      by simp [nameMismatchMsg, String.append_assoc]⟩

theorem c5_witness :
    (ensure_from_older_version (some ⟨"demo", "0.1.2"⟩) "cw20-base" "0.1.2" =
      (.error (.genericErr (nameMismatchMsg "demo" "cw20-base")), some ⟨"demo", "0.1.2"⟩) ∧
    ContainsSubstr (nameMismatchMsg "demo" "cw20-base") "demo" ∧
    ContainsSubstr (nameMismatchMsg "demo" "cw20-base") "cw20-base") :=
  c5_name_mismatch "demo" "cw20-base" "0.1.2" "0.1.2" ⟨0, 1, 2, [], []⟩ ⟨0, 1, 2, [], []⟩
    (by decide) (by decide) (by decide)

/-- Claim C7: when the parsed stored version is strictly less than the parsed
new version (names equal), `ensure_from_older_version` overwrites the stored
record with the expected name and the literal new-version input string (not
a re-serialization of the parsed version), and returns the parsed stored
version. -/
theorem c7_upgrade_overwrites_literal (n sv nv : String) (p q : Semver.Version)
    (hs : Semver.parse sv = .ok p) (hn : Semver.parse nv = .ok q)
    (hlt : Semver.cmpVersion p q = .lt) :
    ensure_from_older_version (some ⟨n, sv⟩) n nv = (.ok p, some ⟨n, nv⟩) := by
  simp [ensure_from_older_version, hn, get_contract_version, hs, hlt, set_contract_version]

theorem c7_witness :
    ensure_from_older_version (some ⟨"demo", "0.4.0"⟩) "demo" "0.4.2" =
      (.ok ⟨0, 4, 0, [], []⟩, some ⟨"demo", "0.4.2"⟩) :=
  c7_upgrade_overwrites_literal "demo" "0.4.0" "0.4.2" ⟨0, 4, 0, [], []⟩ ⟨0, 4, 2, [], []⟩
    (by decide) (by decide) (by decide)

/-- Claim C9: write/read round-trip — for every pair of strings `(n, v)`
(also ones that are not valid semantic versions; the write validates
nothing), `set_contract_version` succeeds and overwrites any prior record,
and a subsequent `get_contract_version` returns exactly `(n, v)`. -/
theorem c9_write_read_roundtrip (st : Store) (n v : String) :
    (set_contract_version st n v).1 = .ok () ∧
    (set_contract_version st n v).2 = some ⟨n, v⟩ ∧
    get_contract_version (set_contract_version st n v).2 = .ok ⟨n, v⟩ :=
  ⟨rfl, rfl, rfl⟩

/-- Claim C10: error-check precedence — the new-version string is parsed
before storage is read, so a malformed new version yields the semver parse
error on any storage state (storage untouched); with a well-formed new
version and no stored record the result is the not-found error. -/
theorem c10_new_version_parse_precedes_load :
    (∀ (st : Store) (n nv : String) (e : Semver.Error), Semver.parse nv = .error e →
      ensure_from_older_version st n nv = (.error (from_semver e), st)) ∧
    (∀ (n nv : String) (v : Semver.Version), Semver.parse nv = .ok v →
      ensure_from_older_version none n nv =
        (.error (.notFound "cw_utils::migrate::ContractVersion"), none)) := by
  constructor
  · intro st n nv e hp
    unfold ensure_from_older_version
    rw [hp]
  · intro n nv v hp
    unfold ensure_from_older_version
    rw [hp]
    rfl

theorem c10_witness :
    (ensure_from_older_version (some ⟨"demo", "1.0.0"⟩) "demo" "0.a.7" =
      (.error (from_semver (.unexpectedChar .minor 'a')), some ⟨"demo", "1.0.0"⟩) ∧
    ensure_from_older_version none "demo" "1.0.0" =
      (.error (.notFound "cw_utils::migrate::ContractVersion"), none)) :=
  ⟨c10_new_version_parse_precedes_load.1 (some ⟨"demo", "1.0.0"⟩) "demo" "0.a.7"
      (.unexpectedChar .minor 'a') (by decide),
    c10_new_version_parse_precedes_load.2 "demo" "1.0.0" ⟨1, 0, 0, [], []⟩ (by decide)⟩

/-- Claim C1 (counterexample): under the spec's comparison — standard
semantic-versioning precedence, build metadata ignored — the versions
`1.0.0+b` and `1.0.0+a` satisfy `v1 <= v2`, yet writing `(demo, 1.0.0+b)`
and then calling `ensure_from_older_version(demo, 1.0.0+a)` fails with the
downgrade error and leaves the stored version at `1.0.0+b`, not `1.0.0+a`:
the library's order breaks the build-metadata tie. -/
theorem c1_counterexample :
    Semver.parse "1.0.0+b" = .ok ⟨1, 0, 0, [], ['b']⟩ ∧
    Semver.parse "1.0.0+a" = .ok ⟨1, 0, 0, [], ['a']⟩ ∧
    Semver.cmpPrecedence ⟨1, 0, 0, [], ['b']⟩ ⟨1, 0, 0, [], ['a']⟩ ≠ .gt ∧
    ensure_from_older_version (set_contract_version none "demo" "1.0.0+b").2
        "demo" "1.0.0+a" =
      (.error (.genericErr (downgradeMsg "1.0.0+b" "1.0.0+a")), some ⟨"demo", "1.0.0+b"⟩) := by
  refine ⟨by decide, by decide, by decide, by decide⟩

/-- Claim C1 (amended): for all valid semantic versions with
`parse v1 <= parse v2` in the semver library's total order (which breaks
ties on build metadata rather than ignoring it) and any name `n`: calling
`set_contract_version(n, v1)` and then `ensure_from_older_version(n, v2)`
succeeds, returns the parsed `v1`, and leaves the stored version equal to
`v2`. -/
theorem c1_write_then_advance (st : Store) (n v1 v2 : String) (p1 p2 : Semver.Version)
    (h1 : Semver.parse v1 = .ok p1) (h2 : Semver.parse v2 = .ok p2)
    (hle : Semver.cmpVersion p1 p2 ≠ .gt) :
    ensure_from_older_version (set_contract_version st n v1).2 n v2 =
      (.ok p1, some ⟨n, v2⟩) := by
  have hst : (set_contract_version st n v1).2 = some ⟨n, v1⟩ := rfl
  rw [hst]
  cases hc : Semver.cmpVersion p1 p2 with
  | lt =>
    simp [ensure_from_older_version, h2, get_contract_version, h1, hc, set_contract_version]
  | eq =>
    have hpp : p1 = p2 := Semver.cmpVersion_eq hc
    subst hpp
    have hsv : v1 = v2 := Semver.parse_inj h1 h2
    subst hsv
    simp [ensure_from_older_version, h2, get_contract_version, h1, Semver.cmpVersion_self]
  | gt => exact absurd hc hle

theorem c1_witness :
    ensure_from_older_version (set_contract_version none "demo" "0.4.0").2 "demo" "0.4.2" =
      (.ok ⟨0, 4, 0, [], []⟩, some ⟨"demo", "0.4.2"⟩) :=
  c1_write_then_advance none "demo" "0.4.0" "0.4.2" ⟨0, 4, 0, [], []⟩ ⟨0, 4, 2, [], []⟩
    (by decide) (by decide) (by decide)

/-- Claim C6 (counterexample): a malformed new-version string `0.a.7` makes
`ensure_from_older_version` fail with the message `Semver: unexpected
character 'a' while parsing minor version number`, which carries the
parser's diagnostic but does not contain the offending version string
`0.a.7` itself. -/
theorem c6_counterexample :
    (ensure_from_older_version none "demo" "0.a.7").1 =
      .error (.genericErr ("Semver: " ++ (Semver.Error.unexpectedChar .minor 'a').message)) ∧
    ¬ ContainsSubstr ("Semver: " ++ (Semver.Error.unexpectedChar .minor 'a').message)
        "0.a.7" := by
  constructor
  · decide
  · intro h
    have h0 : '0' ∈ "0.a.7".data := by decide
    have hmem := containsSubstr_mem h h0
    revert hmem
    decide

/-- Claim C6 (amended): whenever `ensure_from_older_version` fails because
the incoming or the stored version string does not parse, the error message
is exactly the underlying parser's diagnostic prefixed with `Semver: `; it
does not in general contain the offending version string itself. -/
theorem c6_invalid_version_message :
    (∀ (st : Store) (n nv : String) (e : Semver.Error), Semver.parse nv = .error e →
      (ensure_from_older_version st n nv).1 =
        .error (.genericErr ("Semver: " ++ e.message))) ∧
    (∀ (m n sv nv : String) (v : Semver.Version) (e : Semver.Error),
      Semver.parse nv = .ok v → Semver.parse sv = .error e →
      (ensure_from_older_version (some ⟨m, sv⟩) n nv).1 =
        .error (.genericErr ("Semver: " ++ e.message))) := by
  constructor
  · intro st n nv e hp
    simp [ensure_from_older_version, hp, from_semver]
  · intro m n sv nv v e hp hs
    simp [ensure_from_older_version, hp, get_contract_version, hs, from_semver]

theorem c6_witness :
    ((ensure_from_older_version none "demo" "0.a.7").1 =
      .error (.genericErr ("Semver: " ++ (Semver.Error.unexpectedChar .minor 'a').message)) ∧
    (ensure_from_older_version (some ⟨"demo", "0.b.1"⟩) "demo" "1.0.0").1 =
      .error (.genericErr ("Semver: " ++ (Semver.Error.unexpectedChar .minor 'b').message))) :=
  ⟨c6_invalid_version_message.1 none "demo" "0.a.7" (.unexpectedChar .minor 'a') (by decide),
    c6_invalid_version_message.2 "demo" "demo" "0.b.1" "1.0.0" ⟨1, 0, 0, [], []⟩
      (.unexpectedChar .minor 'b') (by decide) (by decide)⟩

/-- Claim C8 (counterexample): the versions `2.3.4+b` and `2.3.4+a` are valid
and differ only in build metadata, yet the comparison used by
`ensure_from_older_version` does not treat them as equal: with `2.3.4+b`
stored, migrating to `2.3.4+a` takes the downgrade-error branch, not the
equal-version no-op branch. -/
theorem c8_counterexample :
    Semver.parse "2.3.4+b" = .ok ⟨2, 3, 4, [], ['b']⟩ ∧
    Semver.parse "2.3.4+a" = .ok ⟨2, 3, 4, [], ['a']⟩ ∧
    Semver.cmpVersion ⟨2, 3, 4, [], ['b']⟩ ⟨2, 3, 4, [], ['a']⟩ ≠ .eq ∧
    (ensure_from_older_version (some ⟨"demo", "2.3.4+b"⟩) "demo" "2.3.4+a").1 =
      .error (.genericErr (downgradeMsg "2.3.4+b" "2.3.4+a")) := by
  refine ⟨by decide, by decide, by decide, by decide⟩

/-- Claim C8 (amended): the comparison used by `ensure_from_older_version`
is the semver library's total order — major, then minor, then patch, then
pre-release precedence, then build metadata as a final tiebreaker (not
ignored). For valid stored and new versions that agree on major, minor,
patch and pre-release, the whole comparison equals the build-metadata
comparison, and the branch taken follows it: greater build rejects the
migration, smaller build updates the record, equal build (hence identical
versions) is the no-op branch. -/
theorem c8_build_metadata_tiebreak (n sv nv : String) (p q : Semver.Version)
    (hs : Semver.parse sv = .ok p) (hn : Semver.parse nv = .ok q)
    (h1 : p.major = q.major) (h2 : p.minor = q.minor) (h3 : p.patch = q.patch)
    (h4 : p.pre = q.pre) :
    Semver.cmpVersion p q = Semver.cmpBuild p.build q.build ∧
    ensure_from_older_version (some ⟨n, sv⟩) n nv =
      (if Semver.cmpBuild p.build q.build = .gt then
        (.error (.genericErr (downgradeMsg sv nv)), some ⟨n, sv⟩)
      else if Semver.cmpBuild p.build q.build = .lt then
        (.ok p, some ⟨n, nv⟩)
      else (.ok p, some ⟨n, sv⟩)) := by
  have hcv : Semver.cmpVersion p q = Semver.cmpBuild p.build q.build := by
    unfold Semver.cmpVersion
    rw [h1, h2, h3, h4]
    simp [Semver.cmpN_self, Semver.cmpPre_self, Ordering.then]
  refine ⟨hcv, ?_⟩
  cases hb : Semver.cmpBuild p.build q.build with
  | lt =>
    rw [hb] at hcv
    simp [ensure_from_older_version, hn, get_contract_version, hs, hcv, set_contract_version]
  | eq =>
    rw [hb] at hcv
    simp [ensure_from_older_version, hn, get_contract_version, hs, hcv]
  | gt =>
    rw [hb] at hcv
    simp [ensure_from_older_version, hn, get_contract_version, hs, hcv]

theorem c8_witness :
    (Semver.cmpVersion ⟨1, 0, 0, [], ['a']⟩ ⟨1, 0, 0, [], ['b']⟩ =
      Semver.cmpBuild ['a'] ['b'] ∧
    ensure_from_older_version (some ⟨"demo", "1.0.0+a"⟩) "demo" "1.0.0+b" =
      (if Semver.cmpBuild ['a'] ['b'] = .gt then
        (.error (.genericErr (downgradeMsg "1.0.0+a" "1.0.0+b")), some ⟨"demo", "1.0.0+a"⟩)
      else if Semver.cmpBuild ['a'] ['b'] = .lt then
        (.ok ⟨1, 0, 0, [], ['a']⟩, some ⟨"demo", "1.0.0+b"⟩)
      else (.ok ⟨1, 0, 0, [], ['a']⟩, some ⟨"demo", "1.0.0+a"⟩))) :=
  c8_build_metadata_tiebreak "demo" "1.0.0+a" "1.0.0+b" ⟨1, 0, 0, [], ['a']⟩
    ⟨1, 0, 0, [], ['b']⟩ (by decide) (by decide) rfl rfl rfl rfl
